import Mathlib

/-!
Shallow embedding of the mind-map layout engine of `src/App.jsx`
(`MindMapRenderer`: `collapseRecursively`, `handleToggle`, `calculateLayout`
with its inner `getLeafCount`, `assignCoords` and `collect`, and the
node-width computation shared with `MindMapNode`).  JavaScript numbers are
modelled by `ℚ` (every arithmetic operation the engine performs — products
with 7.5, sums, halving — is exact in IEEE doubles at these magnitudes),
string length by `String.length`, and the collapsed `Set` of ids by
`Finset String`.
-/

mutual
/-- Input tree node `{id, label, type, children}` as consumed by the renderer. -/
inductive TreeNode : Type where
  | node (id label type : String) (children : TreeList)
/-- Ordered sequence of child nodes (the JSON `children` array). -/
inductive TreeList : Type where
  | nil
  | cons (t : TreeNode) (ts : TreeList)
end

def TreeNode.id : TreeNode → String
  | .node i _ _ _ => i

def TreeNode.label : TreeNode → String
  | .node _ l _ _ => l

def TreeNode.type : TreeNode → String
  | .node _ _ ty _ => ty

def TreeNode.children : TreeNode → TreeList
  | .node _ _ _ ch => ch

instance : Inhabited TreeNode := ⟨.node "" "" "" .nil⟩

def TreeList.toList : TreeList → List TreeNode
  | .nil => []
  | .cons t ts => t :: ts.toList

/-- JavaScript emptiness test `!node.children || node.children.length === 0`. -/
def TreeList.isNil : TreeList → Bool
  | .nil => true
  | .cons _ _ => false


/-- Dynamic width calculation (lines 172-175 and again inside `collect`):
`Math.max(140, node.label.length * (isCode ? 7.5 : 7) + 30)`. -/
def nodeWidth (label type : String) : ℚ :=
  max 140 ((label.length : ℚ) * (if type = "code" then 15 / 2 else 7) + 30)

/-- The `handleToggle` state update: if the id is present remove it, else add it. -/
def handleToggle (collapsed : Finset String) (id : String) : Finset String :=
  if id ∈ collapsed then collapsed.erase id else insert id collapsed

mutual
/-- Seeding pass `collapseRecursively` of the `useEffect` on `data`: a node with
at least one child whose id differs from the root's id is inserted; recursion
descends only into nodes that have children. -/
def collapseRecursively (rootId : String) (acc : Finset String) : TreeNode → Finset String
  | .node i _ _ ch =>
    if ch.isNil then acc
    else collapseRecursivelyList rootId (if i ≠ rootId then insert i acc else acc) ch
def collapseRecursivelyList (rootId : String) (acc : Finset String) : TreeList → Finset String
  | .nil => acc
  | .cons t ts => collapseRecursivelyList rootId (collapseRecursively rootId acc t) ts
end

/-- The initial collapsed set built by the `useEffect`: `collapseRecursively(data)`
starting from an empty set, with the root's own id as the exemption. -/
def seedCollapsed (root : TreeNode) : Finset String :=
  collapseRecursively root.id ∅ root

mutual
/-- Inner helper `getLeafCount` of `calculateLayout`: a collapsed or childless
node counts one visual leaf; otherwise the counts of the children are summed. -/
def getLeafCount (collapsedSet : Finset String) : TreeNode → Nat
  | .node i _ _ ch =>
    if i ∈ collapsedSet then 1
    else if ch.isNil then 1
    else getLeafCountList collapsedSet ch
def getLeafCountList (collapsedSet : Finset String) : TreeList → Nat
  | .nil => 0
  | .cons t ts => getLeafCount collapsedSet t + getLeafCountList collapsedSet ts
end

mutual
/-- Output node built by `assignCoords`: the node's own fields plus `depth`,
`isCollapsed`, `x`, `y`.  A visual leaf keeps its original unpositioned
children (`PChildren.raw`); an expanded node carries positioned ones. -/
inductive PNode : Type where
  | mk (id label type : String) (depth : Nat) (isCollapsed : Bool) (x y : ℚ)
       (children : PChildren)
inductive PChildren : Type where
  | raw (l : TreeList)
  | processed (l : PList)
inductive PList : Type where
  | nil
  | cons (p : PNode) (ps : PList)
end

def PNode.id : PNode → String
  | .mk i _ _ _ _ _ _ _ => i

def PNode.label : PNode → String
  | .mk _ l _ _ _ _ _ _ => l

def PNode.type : PNode → String
  | .mk _ _ ty _ _ _ _ _ => ty

def PNode.depth : PNode → Nat
  | .mk _ _ _ d _ _ _ _ => d

def PNode.isCollapsed : PNode → Bool
  | .mk _ _ _ _ b _ _ _ => b

def PNode.x : PNode → ℚ
  | .mk _ _ _ _ _ x _ _ => x

def PNode.y : PNode → ℚ
  | .mk _ _ _ _ _ _ y _ => y

def PNode.children : PNode → PChildren
  | .mk _ _ _ _ _ _ _ ch => ch

instance : Inhabited PNode := ⟨.mk "" "" "" 0 false 0 0 (.raw .nil)⟩

def PList.toList : PList → List PNode
  | .nil => []
  | .cons p ps => p :: ps.toList

/-- The `y` of `processedNode.children[0]` (0 when the list is empty — the
source only evaluates this on a non-empty children array). -/
def PList.headY : PList → ℚ
  | .nil => 0
  | .cons p _ => p.y

/-- The `y` of `processedNode.children[children.length - 1]`. -/
def PList.lastY : PList → ℚ
  | .nil => 0
  | .cons p .nil => p.y
  | .cons _ (.cons q qs) => PList.lastY (.cons q qs)

mutual
/-- Coordinate-assignment pass (lines 280-297): a collapsed or childless node
is a visual leaf taking `x = depth*300 + 100`, `y = currentLeafY*80 + 50` and
bumping the shared leaf counter; otherwise the children are processed first
(left to right, threading the counter) and the parent is centred vertically
between its first and last child. -/
def assignCoords (collapsedSet : Finset String) : TreeNode → Nat → Nat → PNode × Nat
  | .node i lb ty ch, depth, currentLeafY =>
    let isCollapsed : Bool := decide (i ∈ collapsedSet)
    if isCollapsed || ch.isNil then
      (.mk i lb ty depth isCollapsed ((depth : ℚ) * 300 + 100)
          ((currentLeafY : ℚ) * 80 + 50) (.raw ch), currentLeafY + 1)
    else
      let r := assignCoordsList collapsedSet ch (depth + 1) currentLeafY
      (.mk i lb ty depth isCollapsed ((depth : ℚ) * 300 + 100)
          ((r.1.headY + r.1.lastY) / 2) (.processed r.1), r.2)
def assignCoordsList (collapsedSet : Finset String) : TreeList → Nat → Nat → PList × Nat
  | .nil, _, currentLeafY => (.nil, currentLeafY)
  | .cons t ts, depth, currentLeafY =>
    let r1 := assignCoords collapsedSet t depth currentLeafY
    let r2 := assignCoordsList collapsedSet ts depth r1.2
    (.cons r1.1 r2.1, r2.2)
end

/-- Connector record pushed by `collect`: `{x1, y1, x2, y2}`. -/
structure Edge : Type where
  x1 : ℚ
  y1 : ℚ
  x2 : ℚ
  y2 : ℚ
deriving DecidableEq

mutual
/-- Collection pass (lines 301-325): push the node (with its computed
half-width); when the node is not collapsed, for each child push the edge
from the parent's right-edge centre to the child's left-edge centre and then
recurse into the child.  A non-collapsed node holding `PChildren.raw`
children is necessarily childless (see `assignCoords`), matching the
source's empty `forEach`. -/
def collect : PNode → List (PNode × ℚ) × List Edge
  | .mk i lb ty d isCollapsed x y ch =>
    let halfWidth := nodeWidth lb ty / 2
    let rest :=
      if isCollapsed then ([], [])
      else
        match ch with
        | .raw _ => ([], [])
        | .processed l => collectList x y halfWidth l
    ((.mk i lb ty d isCollapsed x y ch, halfWidth) :: rest.1, rest.2)
def collectList (px py phw : ℚ) : PList → List (PNode × ℚ) × List Edge
  | .nil => ([], [])
  | .cons c cs =>
    let childHalfWidth := nodeWidth c.label c.type / 2
    let rc := collect c
    let rs := collectList px py phw cs
    (rc.1 ++ rs.1,
      ⟨px + phw, py, c.x - childHalfWidth, c.y⟩ :: (rc.2 ++ rs.2))
end

/-- Return value of `calculateLayout`. -/
structure LayoutResult : Type where
  nodes : List (PNode × ℚ)
  edges : List Edge
  width : ℚ
  height : ℚ

/-- Full layout (lines 267-334).  A `none` root models the absent/null tree:
`JSON.parse(JSON.stringify(null))` is `null` and the subsequent `node.id`
access in `assignCoords` throws a `TypeError`, so no result is produced.
The source's `n.halfWidth || 70` fallback in the `maxX` reduction is dead:
every collected node carries `halfWidth = nodeWidth/2 ≥ 70 > 0`, so the
embedding reads the stored half-width directly. -/
def calculateLayout : Option TreeNode → Finset String → Option LayoutResult
  | none, _ => none
  | some root, collapsedSet =>
    let layoutRoot := (assignCoords collapsedSet root 0 0).1
    let r := collect layoutRoot
    let maxX := r.1.foldl (fun m n => max m (n.1.x + n.2)) 0
    let maxY := r.1.foldl (fun m n => max m n.1.y) 0
    some ⟨r.1, r.2, max 800 (maxX + 200), max 600 (maxY + 200)⟩

/-- Positioned root produced by the assignment pass. -/
def layoutRootOf (root : TreeNode) (collapsedSet : Finset String) : PNode :=
  (assignCoords collapsedSet root 0 0).1

/-- Node list of the layout. -/
def layoutNodes (root : TreeNode) (collapsedSet : Finset String) : List (PNode × ℚ) :=
  (collect (layoutRootOf root collapsedSet)).1

/-- Edge list of the layout. -/
def layoutEdges (root : TreeNode) (collapsedSet : Finset String) : List Edge :=
  (collect (layoutRootOf root collapsedSet)).2

/-! Claim-side vocabulary: enumerations of a tree's nodes, ancestor lists,
tree depth, id uniqueness, and erasure/projection functions on the
positioned output. -/

mutual
/-- All nodes of the tree, in depth-first pre-order. -/
def nodesOf : TreeNode → List TreeNode
  | .node i lb ty ch => .node i lb ty ch :: nodesOfList ch
def nodesOfList : TreeList → List TreeNode
  | .nil => []
  | .cons t ts => nodesOf t ++ nodesOfList ts
end

mutual
/-- Every node of the tree paired with its list of strict ancestors
(nearest first), the second argument accumulating the ancestors of the
current subtree's root. -/
def nodesWithAnc : TreeNode → List TreeNode → List (TreeNode × List TreeNode)
  | .node i lb ty ch, anc =>
    (.node i lb ty ch, anc) :: nodesWithAncList ch (.node i lb ty ch :: anc)
def nodesWithAncList : TreeList → List TreeNode → List (TreeNode × List TreeNode)
  | .nil, _ => []
  | .cons t ts, anc => nodesWithAnc t anc ++ nodesWithAncList ts anc
end

mutual
/-- Depth of a tree: a childless root has depth 0, grandchildren make depth 2. -/
def treeDepth : TreeNode → Nat
  | .node _ _ _ ch => treeDepthList ch
def treeDepthList : TreeList → Nat
  | .nil => 0
  | .cons t ts => max (treeDepth t + 1) (treeDepthList ts)
end

/-- The documented input invariant: no two nodes of the tree share an id. -/
def uniqueIds (root : TreeNode) : Prop :=
  ((nodesOf root).map TreeNode.id).Nodup

mutual
/-- Forget the `isCollapsed` flags of a positioned node (recursively),
keeping ids, labels, types, depths and all coordinates. -/
def clearFlags : PNode → PNode
  | .mk i lb ty d _ x y ch => .mk i lb ty d false x y (clearFlagsChildren ch)
def clearFlagsChildren : PChildren → PChildren
  | .raw l => .raw l
  | .processed l => .processed (clearFlagsList l)
def clearFlagsList : PList → PList
  | .nil => .nil
  | .cons p ps => .cons (clearFlags p) (clearFlagsList ps)
end

mutual
/-- Strip every field the layout added, recovering the input tree node. -/
def eraseLayout : PNode → TreeNode
  | .mk i lb ty _ _ _ _ ch => .node i lb ty (eraseChildren ch)
def eraseChildren : PChildren → TreeList
  | .raw l => l
  | .processed l => eraseList l
def eraseList : PList → TreeList
  | .nil => .nil
  | .cons p ps => .cons (eraseLayout p) (eraseList ps)
end

def PList.length : PList → Nat
  | .nil => 0
  | .cons _ ps => ps.length + 1

mutual
/-- Modelled from the claim's words (C4): for every node that is not
collapsed and has visible children, one edge per child, anchored at the
parent's right-edge centre `(x + halfWidth, y)` and the child's left-edge
centre `(x - childHalfWidth, y)`, each half-width being
`nodeWidth(label, kind) / 2` computed independently per node. -/
def edgesSpec : PNode → List Edge
  | .mk _ lb ty _ isCollapsed x y ch =>
    if isCollapsed then []
    else
      match ch with
      | .raw _ => []
      | .processed l => edgesSpecList x y (nodeWidth lb ty / 2) l
def edgesSpecList (px py phw : ℚ) : PList → List Edge
  | .nil => []
  | .cons c cs =>
    ⟨px + phw, py, c.x - nodeWidth c.label c.type / 2, c.y⟩ ::
      (edgesSpec c ++ edgesSpecList px py phw cs)
end

mutual
/-- Number of (parent, visible-child) pairs among visible, non-collapsed
parents of the positioned tree. -/
def visChildPairs : PNode → Nat
  | .mk _ _ _ _ isCollapsed _ _ ch =>
    if isCollapsed then 0
    else
      match ch with
      | .raw _ => 0
      | .processed l => l.length + visChildPairsList l
def visChildPairsList : PList → Nat
  | .nil => 0
  | .cons p ps => visChildPairs p + visChildPairsList ps
end

mutual
/-- Visible strict descendants of a positioned node, in depth-first
pre-order: nothing below a collapsed node, otherwise each child followed by
its own visible descendants. -/
def visDesc : PNode → List PNode
  | .mk _ _ _ _ isCollapsed _ _ ch =>
    if isCollapsed then []
    else
      match ch with
      | .raw _ => []
      | .processed l => visDescList l
def visDescList : PList → List PNode
  | .nil => []
  | .cons p ps => (p :: visDesc p) ++ visDescList ps
end

/-- A visual leaf of the layout: a node that is in the collapsed set or has
no children. -/
def visualLeaf (collapsedSet : Finset String) (t : TreeNode) : Prop :=
  t.id ∈ collapsedSet ∨ t.children.isNil = true

mutual
/-- Ids of the nodes the collection pass keeps: every node lists its own id
and, unless it is collapsed, the ids kept below each of its children. -/
def visIds (c : Finset String) : TreeNode → List String
  | .node i _ _ ch => i :: (if i ∈ c then [] else visIdsList c ch)
def visIdsList (c : Finset String) : TreeList → List String
  | .nil => []
  | .cons t ts => visIds c t ++ visIdsList c ts
end

/-- Boolean test that none of the recorded strict ancestors is collapsed. -/
def ancOK (c : Finset String) (x : TreeNode × List TreeNode) : Bool :=
  x.2.all (fun a => !decide (a.id ∈ c))

/-- A childless example node. -/
def leafEx : TreeNode := .node "a" "" "child" .nil

/-- An example root with one childless child. -/
def branchEx : TreeNode := .node "r" "" "root" (.cons leafEx .nil)

/-- An example chain of depth 2: root, child, grandchild. -/
def chainEx : TreeNode :=
  .node "r" "" "root" (.cons (.node "a" "" "child"
    (.cons (.node "g" "" "child" .nil) .nil)) .nil)

/-! Basic lemmas and the first claims. -/

theorem eraseChildren_raw (l : TreeList) : eraseChildren (.raw l) = l := rfl

mutual
theorem eraseLayout_assignCoords (c : Finset String) :
    ∀ (t : TreeNode) (d cnt : Nat), eraseLayout (assignCoords c t d cnt).1 = t
  | .node i lb ty ch, d, cnt => by
    rw [assignCoords]
    by_cases hb : (decide (i ∈ c) || ch.isNil) = true
    · simp only [hb, if_true, eraseLayout, eraseChildren]
    · simp only [hb, if_false, Bool.false_eq_true, eraseLayout, eraseChildren]
      rw [eraseList_assignCoordsList c ch (d + 1) cnt]
theorem eraseList_assignCoordsList (c : Finset String) :
    ∀ (ts : TreeList) (d cnt : Nat), eraseList (assignCoordsList c ts d cnt).1 = ts
  | .nil, _, _ => rfl
  | .cons t ts, d, cnt => by
    rw [assignCoordsList]
    simp only [eraseList]
    rw [eraseLayout_assignCoords c t d cnt, eraseList_assignCoordsList c ts d _]
end

/-- C9: for every tree and collapsed set, running the layout leaves the
caller's input tree unchanged — stripping the fields the engine added
(`depth`, `isCollapsed`, `x`, `y`) from the positioned tree recovers every
node's id, label, kind and children sequence exactly.  (The source operates
on `JSON.parse(JSON.stringify(root))`; all writes of `assignCoords` and
`collect` target that copy, which this pure embedding reflects.) -/
theorem layout_preserves_input_tree (root : TreeNode) (c : Finset String) :
    eraseLayout (layoutRootOf root c) = root :=
  eraseLayout_assignCoords c root 0 0

/-- C6: double toggle restores the collapsed set exactly, hence also the
layout output for the same tree. -/
theorem toggle_toggle_roundtrip (c : Finset String) (id : String) (root : Option TreeNode) :
    handleToggle (handleToggle c id) id = c ∧
    calculateLayout root (handleToggle (handleToggle c id) id) = calculateLayout root c := by
  have h : handleToggle (handleToggle c id) id = c := by
    by_cases hm : id ∈ c
    · simp only [handleToggle, hm, if_true]
      simp [Finset.insert_erase hm]
    · simp only [handleToggle, hm, if_false]
      simp [hm, Finset.erase_insert hm]
  exact ⟨h, by rw [h]⟩

/-- C7 counterexample: with an absent (`null`) root the engine does not
return the empty well-formed result `{nodes := [], edges := [], width := 800,
height := 600}` — the `null.id` access in `assignCoords` throws, which the
embedding records as the absence of any result. -/
theorem calculateLayout_none_not_empty_result :
    calculateLayout none ∅ ≠ some ⟨[], [], 800, 600⟩ := by
  intro h
  simp [calculateLayout] at h

/-- C7 amended: if the root argument is null/absent, `calculateLayout`
produces no result at all (in the browser it throws a `TypeError` on
`node.id`); it does not return an empty layout.  The application never
reaches this case because the renderer is only mounted with a non-null
tree. -/
theorem calculateLayout_none (c : Finset String) : calculateLayout none c = none := rfl

/-- C5: the Sizing Function is `max(140, length*7.5 + 30)` for `code` nodes
and `max(140, length*7 + 30)` otherwise; at a label of length 40 this gives
width 330 for a `code` node and 310 for a `child` node. -/
theorem nodeWidth_spec :
    (∀ label ty : String, nodeWidth label ty =
        if ty = "code" then max 140 ((label.length : ℚ) * (15 / 2) + 30)
        else max 140 ((label.length : ℚ) * 7 + 30)) ∧
    nodeWidth "0123456789012345678901234567890123456789" "code" = 330 ∧
    nodeWidth "0123456789012345678901234567890123456789" "child" = 310 := by
  refine ⟨fun label ty => ?_, ?_, ?_⟩
  · by_cases h : ty = "code" <;> simp [nodeWidth, h]
  · have h : ("0123456789012345678901234567890123456789".length) = 40 := rfl
    rw [nodeWidth, h]
    rw [if_pos rfl]
    rw [show ((40 : ℕ) : ℚ) * (15 / 2) + 30 = 330 by norm_num]
    exact max_eq_right (by norm_num)
  · have h : ("0123456789012345678901234567890123456789".length) = 40 := rfl
    rw [nodeWidth, h]
    rw [if_neg (by decide)]
    rw [show ((40 : ℕ) : ℚ) * 7 + 30 = 310 by norm_num]
    exact max_eq_right (by norm_num)

/-! Unfolding lemmas for the two passes. -/

theorem assignCoords_leaf (c : Finset String) (i lb ty : String) (ch : TreeList) (d cnt : Nat)
    (hb : (decide (i ∈ c) || ch.isNil) = true) :
    assignCoords c (.node i lb ty ch) d cnt =
      (.mk i lb ty d (decide (i ∈ c)) ((d : ℚ) * 300 + 100) ((cnt : ℚ) * 80 + 50) (.raw ch),
        cnt + 1) := by
  rw [assignCoords]
  simp only [hb, if_true]

theorem assignCoords_internal (c : Finset String) (i lb ty : String) (ch : TreeList) (d cnt : Nat)
    (hb : (decide (i ∈ c) || ch.isNil) = false) :
    assignCoords c (.node i lb ty ch) d cnt =
      (.mk i lb ty d (decide (i ∈ c)) ((d : ℚ) * 300 + 100)
        (((assignCoordsList c ch (d + 1) cnt).1.headY +
          (assignCoordsList c ch (d + 1) cnt).1.lastY) / 2)
        (.processed (assignCoordsList c ch (d + 1) cnt).1),
       (assignCoordsList c ch (d + 1) cnt).2) := by
  rw [assignCoords]
  simp only [hb, Bool.false_eq_true, if_false]

theorem assignCoordsList_cons (c : Finset String) (t : TreeNode) (ts : TreeList) (d cnt : Nat) :
    assignCoordsList c (.cons t ts) d cnt =
      (.cons (assignCoords c t d cnt).1 (assignCoordsList c ts d (assignCoords c t d cnt).2).1,
       (assignCoordsList c ts d (assignCoords c t d cnt).2).2) := by
  rw [assignCoordsList]

theorem collect_collapsed (i lb ty : String) (d : Nat) (x y : ℚ) (ch : PChildren) :
    collect (.mk i lb ty d true x y ch) =
      ([(.mk i lb ty d true x y ch, nodeWidth lb ty / 2)], []) := by
  rw [collect.eq_def]
  simp

theorem collect_raw (i lb ty : String) (d : Nat) (x y : ℚ) (l : TreeList) :
    collect (.mk i lb ty d false x y (.raw l)) =
      ([(.mk i lb ty d false x y (.raw l), nodeWidth lb ty / 2)], []) := by
  rw [collect.eq_def]
  simp

theorem collect_processed (i lb ty : String) (d : Nat) (x y : ℚ) (l : PList) :
    collect (.mk i lb ty d false x y (.processed l)) =
      ((.mk i lb ty d false x y (.processed l), nodeWidth lb ty / 2) ::
          (collectList x y (nodeWidth lb ty / 2) l).1,
        (collectList x y (nodeWidth lb ty / 2) l).2) := by
  rw [collect.eq_def]
  simp

theorem collectList_cons (px py phw : ℚ) (p : PNode) (ps : PList) :
    collectList px py phw (.cons p ps) =
      ((collect p).1 ++ (collectList px py phw ps).1,
        ⟨px + phw, py, p.x - nodeWidth p.label p.type / 2, p.y⟩ ::
          ((collect p).2 ++ (collectList px py phw ps).2)) := by
  rw [collectList]

/-! C1: the coordinate-assignment contract. -/

theorem visualLeaf_iff (c : Finset String) (i lb ty : String) (ch : TreeList) :
    visualLeaf c (.node i lb ty ch) ↔ (decide (i ∈ c) || ch.isNil) = true := by
  simp [visualLeaf, TreeNode.id, TreeNode.children]

mutual
theorem assignCoords_spec (c : Finset String) :
    ∀ (t : TreeNode) (d cnt : Nat),
      (assignCoords c t d cnt).1.x = (d : ℚ) * 300 + 100 ∧
      (assignCoords c t d cnt).1.depth = d ∧
      (assignCoords c t d cnt).2 = cnt + getLeafCount c t ∧
      (visualLeaf c t →
        (assignCoords c t d cnt).1.y = (cnt : ℚ) * 80 + 50 ∧
        (assignCoords c t d cnt).2 = cnt + 1) ∧
      (¬ visualLeaf c t →
        ∃ l, (assignCoords c t d cnt).1.children = PChildren.processed l ∧
          l = (assignCoordsList c t.children (d + 1) cnt).1 ∧
          l ≠ PList.nil ∧
          (assignCoords c t d cnt).1.y = (l.headY + l.lastY) / 2)
  | .node i lb ty ch, d, cnt => by
    by_cases hb : (decide (i ∈ c) || ch.isNil) = true
    · rw [assignCoords_leaf c i lb ty ch d cnt hb]
      have hglc : getLeafCount c (.node i lb ty ch) = 1 := by
        rcases Bool.or_eq_true_iff.mp hb with h | h
        · rw [getLeafCount, if_pos (of_decide_eq_true h)]
        · rw [getLeafCount]
          by_cases hm : i ∈ c
          · rw [if_pos hm]
          · rw [if_neg hm, if_pos h]
      refine ⟨rfl, rfl, ?_, fun _ => ⟨rfl, rfl⟩, fun hvl => ?_⟩
      · rw [hglc]
      · exact absurd ((visualLeaf_iff c i lb ty ch).mpr hb) hvl
    · have hbf : (decide (i ∈ c) || ch.isNil) = false := Bool.eq_false_iff.mpr hb
      rw [assignCoords_internal c i lb ty ch d cnt hbf]
      have hch : ch.isNil = false := by
        rcases Bool.or_eq_false_iff.mp hbf with ⟨_, h⟩
        exact h
      have hm : i ∉ c := by
        rcases Bool.or_eq_false_iff.mp hbf with ⟨h, _⟩
        exact of_decide_eq_false h
      have hglc : getLeafCount c (.node i lb ty ch) = getLeafCountList c ch := by
        rw [getLeafCount, if_neg hm, if_neg (by simp [hch])]
      have hlist := assignCoordsList_spec c ch (d + 1) cnt
      refine ⟨rfl, rfl, ?_, fun hvl => ?_, fun _ => ?_⟩
      · rw [hglc]
        exact hlist.1
      · rw [visualLeaf_iff c i lb ty ch] at hvl
        rw [hvl] at hbf
        cases hbf
      · refine ⟨(assignCoordsList c ch (d + 1) cnt).1, rfl, by rw [TreeNode.children], ?_, rfl⟩
        intro hnil
        have : ch = .nil := (hlist.2).mp hnil
        rw [this] at hch
        cases hch
theorem assignCoordsList_spec (c : Finset String) :
    ∀ (ts : TreeList) (d cnt : Nat),
      (assignCoordsList c ts d cnt).2 = cnt + getLeafCountList c ts ∧
      ((assignCoordsList c ts d cnt).1 = PList.nil ↔ ts = TreeList.nil)
  | .nil, d, cnt => by
    rw [assignCoordsList]
    simp [getLeafCountList]
  | .cons t ts, d, cnt => by
    rw [assignCoordsList_cons]
    have h1 := assignCoords_spec c t d cnt
    have h2 := assignCoordsList_spec c ts d (assignCoords c t d cnt).2
    refine ⟨?_, by simp⟩
    rw [h2.1, h1.2.2.1, getLeafCountList]
    omega
end

/-- C1: for every tree and collapsed set, the assignment pass gives every
node `x = depth * 300 + 100`; a visual leaf (a node that is collapsed or has
no children) gets `y = slotCounter * 80 + 50` and advances the single slot
counter by exactly one; an expanded node has its children positioned first
(left to right, threading the same counter, which grows by one per visual
leaf as counted by `getLeafCount`) and receives `y` equal to the average of
its first and last positioned child's `y` — not the mean over all children.
The layout enters the pass at depth 0 with the counter at 0. -/
theorem coordinate_assignment_claim (c : Finset String) (t : TreeNode) (d cnt : Nat) :
    (assignCoords c t d cnt).1.x = (d : ℚ) * 300 + 100 ∧
    (visualLeaf c t →
      (assignCoords c t d cnt).1.y = (cnt : ℚ) * 80 + 50 ∧
      (assignCoords c t d cnt).2 = cnt + 1) ∧
    (¬ visualLeaf c t →
      ∃ l, (assignCoords c t d cnt).1.children = PChildren.processed l ∧
        l = (assignCoordsList c t.children (d + 1) cnt).1 ∧
        l ≠ PList.nil ∧
        (assignCoords c t d cnt).1.y = (l.headY + l.lastY) / 2) ∧
    (assignCoords c t d cnt).2 = cnt + getLeafCount c t ∧
    layoutRootOf t c = (assignCoords c t 0 0).1 := by
  have h := assignCoords_spec c t d cnt
  exact ⟨h.1, h.2.2.2.1, h.2.2.2.2, h.2.2.1, rfl⟩

/-- Witness for C1 at concrete inputs: the childless node `leafEx` is a
visual leaf and gets `y = 50`; the expanded root `branchEx` has processed,
non-empty children. -/
theorem coordinate_assignment_claim_witness :
    ((assignCoords ∅ leafEx 0 0).1.y = ((0 : Nat) : ℚ) * 80 + 50 ∧
      (assignCoords ∅ leafEx 0 0).2 = 0 + 1) ∧
    (∃ l, (assignCoords ∅ branchEx 0 0).1.children = PChildren.processed l ∧
      l = (assignCoordsList ∅ branchEx.children (0 + 1) 0).1 ∧
      l ≠ PList.nil ∧
      (assignCoords ∅ branchEx 0 0).1.y = (l.headY + l.lastY) / 2) :=
  ⟨(coordinate_assignment_claim ∅ leafEx 0 0).2.1
      (Or.inr rfl),
   (coordinate_assignment_claim ∅ branchEx 0 0).2.2.1
      (by simp [visualLeaf, branchEx, TreeNode.id, TreeNode.children, TreeList.isNil])⟩

/-! C2: visibility. -/

mutual
theorem collect_ids_eq_visIds (c : Finset String) :
    ∀ (t : TreeNode) (d cnt : Nat),
      ((collect (assignCoords c t d cnt).1).1).map (fun x => x.1.id) = visIds c t
  | .node i lb ty ch, d, cnt => by
    by_cases hm : i ∈ c
    · have hd : decide (i ∈ c) = true := by simp [hm]
      have hb : (decide (i ∈ c) || ch.isNil) = true := by simp [hd]
      rw [assignCoords_leaf c i lb ty ch d cnt hb, hd, collect_collapsed, visIds]
      simp [hm, PNode.id]
    · have hd : decide (i ∈ c) = false := by simp [hm]
      cases ch with
      | nil =>
        have hb : (decide (i ∈ c) || TreeList.isNil .nil) = true := by
          simp [TreeList.isNil]
        rw [assignCoords_leaf c i lb ty .nil d cnt hb, hd, collect_raw, visIds]
        simp [hm, PNode.id, visIdsList]
      | cons t1 ts1 =>
        have hb : (decide (i ∈ c) || TreeList.isNil (.cons t1 ts1)) = false := by
          simp [hd, TreeList.isNil]
        rw [assignCoords_internal c i lb ty (.cons t1 ts1) d cnt hb, hd,
          collect_processed, visIds, if_neg hm]
        simp only [List.map_cons]
        rw [collectList_ids_eq_visIdsList c (.cons t1 ts1) (d + 1) cnt]
        rfl
theorem collectList_ids_eq_visIdsList (c : Finset String) :
    ∀ (ts : TreeList) (d cnt : Nat) {px py phw : ℚ},
      ((collectList px py phw (assignCoordsList c ts d cnt).1).1).map (fun x => x.1.id) =
        visIdsList c ts
  | .nil, d, cnt, px, py, phw => by
    rw [assignCoordsList]
    rw [show collectList px py phw PList.nil = ([], []) from by rw [collectList]]
    rfl
  | .cons t ts, d, cnt, px, py, phw => by
    rw [assignCoordsList_cons, collectList_cons]
    simp only [List.map_append, visIdsList]
    rw [collect_ids_eq_visIds c t d cnt,
      collectList_ids_eq_visIdsList c ts d (assignCoords c t d cnt).2]
end

mutual
theorem nwa_filtered_nil (c : Finset String) :
    ∀ (t : TreeNode) (anc : List TreeNode), (∃ a ∈ anc, a.id ∈ c) →
      (nodesWithAnc t anc).filter (ancOK c) = []
  | .node i lb ty ch, anc, h => by
    rw [nodesWithAnc, List.filter_cons]
    have hok : ancOK c (.node i lb ty ch, anc) = false := by
      obtain ⟨a, ha, hma⟩ := h
      simp only [ancOK]
      by_contra hne
      rw [Bool.not_eq_false, List.all_eq_true] at hne
      have hfa := hne a ha
      simp [hma] at hfa
    rw [hok]
    simp only [Bool.false_eq_true, if_false]
    exact nwaList_filtered_nil c ch (.node i lb ty ch :: anc)
      (by obtain ⟨a, ha, hma⟩ := h; exact ⟨a, List.mem_cons_of_mem _ ha, hma⟩)
theorem nwaList_filtered_nil (c : Finset String) :
    ∀ (ts : TreeList) (anc : List TreeNode), (∃ a ∈ anc, a.id ∈ c) →
      (nodesWithAncList ts anc).filter (ancOK c) = []
  | .nil, _, _ => by rw [nodesWithAncList]; rfl
  | .cons t ts, anc, h => by
    rw [nodesWithAncList, List.filter_append,
      nwa_filtered_nil c t anc h, nwaList_filtered_nil c ts anc h]
    rfl
end

mutual
theorem nwa_filter_map_ids (c : Finset String) :
    ∀ (t : TreeNode) (anc : List TreeNode), (∀ a ∈ anc, a.id ∉ c) →
      ((nodesWithAnc t anc).filter (ancOK c)).map (fun x => x.1.id) = visIds c t
  | .node i lb ty ch, anc, h => by
    rw [nodesWithAnc, List.filter_cons]
    have hok : ancOK c (.node i lb ty ch, anc) = true := by
      simp only [ancOK, List.all_eq_true, Bool.not_eq_true', decide_eq_false_iff_not]
      exact h
    rw [hok]
    simp only [if_true, List.map_cons, visIds]
    by_cases hm : i ∈ c
    · rw [if_pos hm]
      rw [nwaList_filtered_nil c ch (.node i lb ty ch :: anc)
        ⟨.node i lb ty ch, List.mem_cons_self _ _, by simpa [TreeNode.id] using hm⟩]
      simp [TreeNode.id]
    · rw [if_neg hm]
      rw [nwaList_filter_map_ids c ch (.node i lb ty ch :: anc) ?_]
      · simp [TreeNode.id]
      · intro a ha
        rcases List.mem_cons.mp ha with rfl | ha'
        · simpa [TreeNode.id] using hm
        · exact h a ha'
theorem nwaList_filter_map_ids (c : Finset String) :
    ∀ (ts : TreeList) (anc : List TreeNode), (∀ a ∈ anc, a.id ∉ c) →
      ((nodesWithAncList ts anc).filter (ancOK c)).map (fun x => x.1.id) = visIdsList c ts
  | .nil, _, _ => by rw [nodesWithAncList]; rfl
  | .cons t ts, anc, h => by
    rw [nodesWithAncList, List.filter_append, List.map_append,
      nwa_filter_map_ids c t anc h, nwaList_filter_map_ids c ts anc h, visIdsList]
end

/-- C2: for every tree and collapsed set, a node of the tree appears in the
layout's output node list exactly when every one of its strict ancestors is
outside the collapsed set (all enumerated nodes being reachable from the
root); the output id sequence coincides with the ancestor-filtered node
enumeration, so a node below a collapsed ancestor contributes no
PositionedNode. -/
theorem visibility_claim (root : TreeNode) (c : Finset String) :
    (layoutNodes root c).map (fun x => x.1.id) =
      ((nodesWithAnc root []).filter (ancOK c)).map (fun x => x.1.id) ∧
    ∀ idv : String,
      (∃ p ∈ layoutNodes root c, p.1.id = idv) ↔
      (∃ e ∈ nodesWithAnc root [], e.1.id = idv ∧ ∀ a ∈ e.2, a.id ∉ c) := by
  have h1 : (layoutNodes root c).map (fun x => x.1.id) = visIds c root :=
    collect_ids_eq_visIds c root 0 0
  have h2 : ((nodesWithAnc root []).filter (ancOK c)).map (fun x => x.1.id) = visIds c root :=
    nwa_filter_map_ids c root [] (by simp)
  refine ⟨h1.trans h2.symm, fun idv => ?_⟩
  have hL : (∃ p ∈ layoutNodes root c, p.1.id = idv) ↔
      idv ∈ (layoutNodes root c).map (fun x => x.1.id) := by
    rw [List.mem_map]
  have hR : idv ∈ ((nodesWithAnc root []).filter (ancOK c)).map (fun x => x.1.id) ↔
      (∃ e ∈ nodesWithAnc root [], e.1.id = idv ∧ ∀ a ∈ e.2, a.id ∉ c) := by
    rw [List.mem_map]
    constructor
    · rintro ⟨e, he, hid⟩
      rw [List.mem_filter] at he
      refine ⟨e, he.1, hid, ?_⟩
      have := he.2
      simp only [ancOK, List.all_eq_true, Bool.not_eq_true', decide_eq_false_iff_not] at this
      exact this
    · rintro ⟨e, he, hid, hanc⟩
      refine ⟨e, ?_, hid⟩
      rw [List.mem_filter]
      refine ⟨he, ?_⟩
      simp only [ancOK, List.all_eq_true, Bool.not_eq_true', decide_eq_false_iff_not]
      exact hanc
  rw [hL, h1, ← h2, hR]

/-! C4: edge derivation. -/

mutual
theorem collect_edges_eq_edgesSpec : ∀ p : PNode, (collect p).2 = edgesSpec p
  | .mk i lb ty d b x y ch => by
    cases b with
    | true =>
      rw [collect_collapsed, edgesSpec.eq_def]
      simp
    | false =>
      cases ch with
      | raw l =>
        rw [collect_raw, edgesSpec.eq_def]
        simp
      | processed l =>
        rw [collect_processed, edgesSpec.eq_def]
        simp only [Bool.false_eq_true, if_false]
        exact collectList_edges_eq_edgesSpecList l x y (nodeWidth lb ty / 2)
theorem collectList_edges_eq_edgesSpecList :
    ∀ (l : PList) (px py phw : ℚ), (collectList px py phw l).2 = edgesSpecList px py phw l
  | .nil, px, py, phw => by
    rw [show collectList px py phw PList.nil = ([], []) from by rw [collectList]]
    rw [edgesSpecList]
  | .cons p ps, px, py, phw => by
    rw [collectList_cons, edgesSpecList]
    rw [collect_edges_eq_edgesSpec p, collectList_edges_eq_edgesSpecList ps px py phw]
end

mutual
theorem edgesSpec_length : ∀ p : PNode, (edgesSpec p).length = visChildPairs p
  | .mk i lb ty d b x y ch => by
    cases b with
    | true =>
      rw [edgesSpec.eq_def, visChildPairs.eq_def]
      simp
    | false =>
      cases ch with
      | raw l =>
        rw [edgesSpec.eq_def, visChildPairs.eq_def]
        simp
      | processed l =>
        rw [edgesSpec.eq_def, visChildPairs.eq_def]
        simp only [Bool.false_eq_true, if_false]
        exact edgesSpecList_length l x y (nodeWidth lb ty / 2)
theorem edgesSpecList_length :
    ∀ (l : PList) (px py phw : ℚ),
      (edgesSpecList px py phw l).length = l.length + visChildPairsList l
  | .nil, px, py, phw => by
    rw [edgesSpecList, PList.length, visChildPairsList]
    rfl
  | .cons p ps, px, py, phw => by
    rw [edgesSpecList, PList.length, visChildPairsList]
    simp only [List.length_cons, List.length_append]
    rw [edgesSpec_length p, edgesSpecList_length ps px py phw]
    omega
end

/-- C4: for every tree and collapsed set, the layout's edge list is exactly
one edge per (visible non-collapsed parent, child) pair — never more, never
less — each anchored at the parent's right-edge centre
`(x + halfWidth, y)` and the child's left-edge centre
`(x - childHalfWidth, y)` with each half-width computed independently by the
Sizing Function; in particular the number of edges equals the number of such
pairs. -/
theorem edges_claim (root : TreeNode) (c : Finset String) :
    layoutEdges root c = edgesSpec (layoutRootOf root c) ∧
    (layoutEdges root c).length = visChildPairs (layoutRootOf root c) := by
  have h : layoutEdges root c = edgesSpec (layoutRootOf root c) :=
    collect_edges_eq_edgesSpec (layoutRootOf root c)
  exact ⟨h, by rw [h, edgesSpec_length]⟩

/-! C10: pre-order of the output node list. -/

mutual
theorem collect_nodes_eq_visDesc : ∀ p : PNode, (collect p).1.map Prod.fst = p :: visDesc p
  | .mk i lb ty d b x y ch => by
    cases b with
    | true =>
      rw [collect_collapsed, visDesc.eq_def]
      simp
    | false =>
      cases ch with
      | raw l =>
        rw [collect_raw, visDesc.eq_def]
        simp
      | processed l =>
        rw [collect_processed, visDesc.eq_def]
        simp only [Bool.false_eq_true, if_false, List.map_cons]
        rw [collectList_nodes_eq_visDescList l x y (nodeWidth lb ty / 2)]
theorem collectList_nodes_eq_visDescList :
    ∀ (l : PList) (px py phw : ℚ), (collectList px py phw l).1.map Prod.fst = visDescList l
  | .nil, px, py, phw => by
    rw [show collectList px py phw PList.nil = ([], []) from by rw [collectList]]
    rw [visDescList]
    rfl
  | .cons p ps, px, py, phw => by
    rw [collectList_cons, visDescList]
    simp only [List.map_append]
    rw [collect_nodes_eq_visDesc p, collectList_nodes_eq_visDescList ps px py phw]
end

mutual
theorem visDesc_split :
    ∀ (p : PNode) (A : List PNode) (q : PNode) (B : List PNode),
      p :: visDesc p = A ++ q :: B → ∃ tl, B = visDesc q ++ tl
  | p, [], q, B, h => by
    simp only [List.nil_append, List.cons.injEq] at h
    exact ⟨[], by rw [← h.1, ← h.2, List.append_nil]⟩
  | .mk i lb ty d b x y ch, a :: A, q, B, h => by
    simp only [List.cons_append, List.cons.injEq] at h
    have h2 : visDesc (.mk i lb ty d b x y ch) = A ++ q :: B := h.2
    cases b with
    | true =>
      rw [visDesc.eq_def] at h2
      simp at h2
    | false =>
      cases ch with
      | raw l =>
        rw [visDesc.eq_def] at h2
        simp at h2
      | processed l =>
        rw [visDesc.eq_def] at h2
        simp only [Bool.false_eq_true, if_false] at h2
        exact visDescList_split l A q B h2
theorem visDescList_split :
    ∀ (l : PList) (A : List PNode) (q : PNode) (B : List PNode),
      visDescList l = A ++ q :: B → ∃ tl, B = visDesc q ++ tl
  | .nil, A, q, B, h => by
    rw [visDescList] at h
    cases A <;> simp_all
  | .cons p ps, A, q, B, h => by
    rw [visDescList] at h
    rcases List.append_eq_append_iff.mp h with ⟨a2, ha1, ha2⟩ | ⟨c2, hc1, hc2⟩
    · exact visDescList_split ps a2 q B ha2
    · cases c2 with
      | nil =>
        simp only [List.nil_append] at hc2
        exact visDescList_split ps [] q B (by simpa using hc2.symm)
      | cons xx c3 =>
        simp only [List.cons_append, List.cons.injEq] at hc2
        obtain ⟨rfl, hB⟩ := hc2
        obtain ⟨tl, htl⟩ := visDesc_split p A q c3 (by rw [hc1])
        exact ⟨tl ++ visDescList ps, by rw [hB, htl, List.append_assoc]⟩
end

/-- C10: the output node list is in depth-first pre-order over the visible
tree: the positioned root is its first element, and everywhere the list is
split around a node, that node's visible descendants immediately follow it —
hence every visible node appears before all of its visible descendants and
every non-root visible node appears strictly after its parent. -/
theorem preorder_claim (root : TreeNode) (c : Finset String) :
    (∃ rest, (layoutNodes root c).map Prod.fst = layoutRootOf root c :: rest) ∧
    ∀ (A : List PNode) (q : PNode) (B : List PNode),
      (layoutNodes root c).map Prod.fst = A ++ q :: B → ∃ tl, B = visDesc q ++ tl := by
  have h : (layoutNodes root c).map Prod.fst =
      layoutRootOf root c :: visDesc (layoutRootOf root c) :=
    collect_nodes_eq_visDesc (layoutRootOf root c)
  refine ⟨⟨visDesc (layoutRootOf root c), h⟩, fun A q B hs => ?_⟩
  exact visDesc_split (layoutRootOf root c) A q B (h.symm.trans hs)

/-- Witness for C10 at a concrete input: splitting the output of the
two-node example around its head, the remainder is the root's visible
descendant list. -/
theorem preorder_claim_witness :
    ∃ tl, ((layoutNodes branchEx ∅).map Prod.fst).tail =
      visDesc (layoutRootOf branchEx ∅) ++ tl := by
  obtain ⟨rest, h⟩ := (preorder_claim branchEx ∅).1
  obtain ⟨tl, htl⟩ := (preorder_claim branchEx ∅).2 [] (layoutRootOf branchEx ∅) rest
    (by simpa using h)
  exact ⟨tl, by rw [h, List.tail_cons, htl]⟩

/-! C3: seeding. -/

theorem nodesOf_self : ∀ t : TreeNode, t ∈ nodesOf t
  | .node i lb ty ch => by rw [nodesOf]; exact List.mem_cons_self _ _

theorem mem_nodesOfList_of_mem_toList :
    ∀ (ts : TreeList) (t : TreeNode), t ∈ ts.toList → t ∈ nodesOfList ts
  | .nil, t, h => by rw [TreeList.toList] at h; cases h
  | .cons u us, t, h => by
    rw [TreeList.toList] at h
    rw [nodesOfList]
    rcases List.mem_cons.mp h with rfl | h2
    · exact List.mem_append_left _ (nodesOf_self t)
    · exact List.mem_append_right _ (mem_nodesOfList_of_mem_toList us t h2)

mutual
theorem mem_collapseRecursively (rootId : String) :
    ∀ (t : TreeNode) (acc : Finset String) (idv : String),
      idv ∈ collapseRecursively rootId acc t ↔
        idv ∈ acc ∨
          ∃ n ∈ nodesOf t, n.id = idv ∧ n.children ≠ TreeList.nil ∧ n.id ≠ rootId
  | .node i lb ty ch, acc, idv => by
    cases ch with
    | nil =>
      rw [collapseRecursively]
      simp [TreeList.isNil, nodesOf, nodesOfList, TreeNode.children]
    | cons t1 ts1 =>
      rw [collapseRecursively]
      simp only [TreeList.isNil, Bool.false_eq_true, if_false]
      rw [mem_collapseRecursivelyList rootId (.cons t1 ts1) _ idv]
      rw [nodesOf]
      by_cases hir : i = rootId
      · rw [if_neg (by simp [hir])]
        simp only [List.mem_cons]
        constructor
        · rintro (hacc | ⟨n, hn, hp⟩)
          · exact Or.inl hacc
          · exact Or.inr ⟨n, Or.inr hn, hp⟩
        · rintro (hacc | ⟨n, (rfl | hn), hp⟩)
          · exact Or.inl hacc
          · exact absurd hir (by simpa [TreeNode.id] using hp.2.2)
          · exact Or.inr ⟨n, hn, hp⟩
      · rw [if_pos (by simp [hir])]
        simp only [Finset.mem_insert, List.mem_cons]
        constructor
        · rintro ((rfl | hacc) | ⟨n, hn, hp⟩)
          · exact Or.inr ⟨.node idv lb ty (.cons t1 ts1), Or.inl rfl,
              by simp [TreeNode.id], by simp [TreeNode.children], by simpa [TreeNode.id] using hir⟩
          · exact Or.inl hacc
          · exact Or.inr ⟨n, Or.inr hn, hp⟩
        · rintro (hacc | ⟨n, (rfl | hn), hp⟩)
          · exact Or.inl (Or.inr hacc)
          · exact Or.inl (Or.inl (by simpa [TreeNode.id] using hp.1.symm))
          · exact Or.inr ⟨n, hn, hp⟩
theorem mem_collapseRecursivelyList (rootId : String) :
    ∀ (ts : TreeList) (acc : Finset String) (idv : String),
      idv ∈ collapseRecursivelyList rootId acc ts ↔
        idv ∈ acc ∨
          ∃ n ∈ nodesOfList ts, n.id = idv ∧ n.children ≠ TreeList.nil ∧ n.id ≠ rootId
  | .nil, acc, idv => by
    rw [collapseRecursivelyList]
    simp [nodesOfList]
  | .cons t ts, acc, idv => by
    rw [collapseRecursivelyList]
    rw [mem_collapseRecursivelyList rootId ts _ idv]
    rw [mem_collapseRecursively rootId t acc idv]
    rw [nodesOfList]
    simp only [List.mem_append]
    constructor
    · rintro ((hacc | ⟨n, hn, hp⟩) | ⟨n, hn, hp⟩)
      · exact Or.inl hacc
      · exact Or.inr ⟨n, Or.inl hn, hp⟩
      · exact Or.inr ⟨n, Or.inr hn, hp⟩
    · rintro (hacc | ⟨n, (hn | hn), hp⟩)
      · exact Or.inl (Or.inl hacc)
      · exact Or.inl (Or.inr ⟨n, hn, hp⟩)
      · exact Or.inr ⟨n, hn, hp⟩
end

theorem mem_seedCollapsed (root : TreeNode) (idv : String) :
    idv ∈ seedCollapsed root ↔
      ∃ n ∈ nodesOf root, n.id = idv ∧ n.children ≠ TreeList.nil ∧ n.id ≠ root.id := by
  rw [seedCollapsed, mem_collapseRecursively]
  simp

theorem id_eq_root_of_uniqueIds (root : TreeNode) (h : uniqueIds root) :
    ∀ n ∈ nodesOf root, n.id = root.id → n = root := by
  cases root with
  | node i lb ty ch =>
    intro n hn hid
    rw [nodesOf] at hn
    rcases List.mem_cons.mp hn with rfl | hn2
    · rfl
    · exfalso
      rw [uniqueIds, nodesOf, List.map_cons] at h
      have hni : n.id ∈ (nodesOfList ch).map TreeNode.id := List.mem_map_of_mem _ hn2
      rw [hid] at hni
      exact (List.nodup_cons.mp h).1 hni

theorem visIdsList_all_singleton (c2 : Finset String) :
    ∀ ts : TreeList, (∀ u ∈ ts.toList, visIds c2 u = [u.id]) →
      visIdsList c2 ts = ts.toList.map TreeNode.id
  | .nil, _ => by rw [visIdsList, TreeList.toList]; rfl
  | .cons t ts, h => by
    rw [visIdsList, TreeList.toList, List.map_cons]
    rw [h t (by rw [TreeList.toList]; exact List.mem_cons_self _ _)]
    rw [visIdsList_all_singleton c2 ts
      (fun u hu => h u (by rw [TreeList.toList]; exact List.mem_cons_of_mem _ hu))]
    rfl

theorem visIds_seed (root : TreeNode) (h : uniqueIds root) :
    visIds (seedCollapsed root) root = root.id :: root.children.toList.map TreeNode.id := by
  cases root with
  | node i lb ty ch =>
    have hnodup := h
    rw [uniqueIds, nodesOf, List.map_cons] at hnodup
    have hnotin : TreeNode.id (.node i lb ty ch) ∉ (nodesOfList ch).map TreeNode.id :=
      (List.nodup_cons.mp hnodup).1
    rw [visIds]
    have hroot : i ∉ seedCollapsed (.node i lb ty ch) := by
      rw [mem_seedCollapsed]
      rintro ⟨n, hn, hid, hne, hnr⟩
      exact hnr (by simpa [TreeNode.id] using hid)
    rw [if_neg hroot]
    rw [TreeNode.id, TreeNode.children]
    congr 1
    apply visIdsList_all_singleton
    intro u hu
    cases u with
    | node j lb2 ty2 ch2 =>
      cases ch2 with
      | nil =>
        rw [visIds, visIdsList]
        simp [TreeNode.id]
      | cons a b =>
        have hj : j ∈ seedCollapsed (.node i lb ty ch) := by
          rw [mem_seedCollapsed]
          refine ⟨.node j lb2 ty2 (.cons a b), ?_, by rw [TreeNode.id], by simp [TreeNode.children], ?_⟩
          · rw [nodesOf]
            exact List.mem_cons_of_mem _ (mem_nodesOfList_of_mem_toList ch _ hu)
          · rw [TreeNode.id, TreeNode.id]
            intro hji
            simp only [TreeNode.id] at hnotin
            apply hnotin
            have hm := List.mem_map_of_mem TreeNode.id (mem_nodesOfList_of_mem_toList ch _ hu)
            simp only [TreeNode.id] at hm
            rw [hji] at hm
            exact hm
        rw [visIds, if_pos hj]
        rw [TreeNode.id]

/-- C3: after `seed(root)` on a tree with unique ids, the collapsed set
contains exactly the ids of nodes that have at least one child and are not
the root itself; consequently, for a tree of depth at least 2, laying out
with the seeded set outputs exactly the root followed by its direct
children. -/
theorem seeding_claim (root : TreeNode) (h : uniqueIds root) :
    (∀ idv : String, idv ∈ seedCollapsed root ↔
        ∃ n ∈ nodesOf root, n.id = idv ∧ n.children ≠ TreeList.nil ∧ n ≠ root) ∧
    (2 ≤ treeDepth root →
      (layoutNodes root (seedCollapsed root)).map (fun x => x.1.id) =
        root.id :: root.children.toList.map TreeNode.id) := by
  constructor
  · intro idv
    rw [mem_seedCollapsed]
    constructor
    · rintro ⟨n, hn, hid, hch, hnr⟩
      exact ⟨n, hn, hid, hch, fun he => hnr (by rw [he])⟩
    · rintro ⟨n, hn, hid, hch, hne⟩
      exact ⟨n, hn, hid, hch, fun hid2 => hne (id_eq_root_of_uniqueIds root h n hn hid2)⟩
  · intro _
    have hl : (layoutNodes root (seedCollapsed root)).map (fun x => x.1.id) =
        visIds (seedCollapsed root) root :=
      collect_ids_eq_visIds (seedCollapsed root) root 0 0
    rw [hl]
    exact visIds_seed root h

/-- Witness for C3 at the depth-2 chain example with unique ids. -/
theorem seeding_claim_witness :
    ("a" ∈ seedCollapsed chainEx ↔
      ∃ n ∈ nodesOf chainEx, n.id = "a" ∧ n.children ≠ TreeList.nil ∧ n ≠ chainEx) ∧
    (layoutNodes chainEx (seedCollapsed chainEx)).map (fun x => x.1.id) =
      chainEx.id :: chainEx.children.toList.map TreeNode.id := by
  have h : uniqueIds chainEx := by
    simp [uniqueIds, nodesOf, nodesOfList, chainEx, TreeNode.id]
  exact ⟨(seeding_claim chainEx h).1 "a",
    (seeding_claim chainEx h).2
      (by simp [treeDepth, treeDepthList, chainEx])⟩

/-! C8: toggling ids without children. -/

theorem mem_handleToggle_of_ne (c : Finset String) (idv a : String) (h : a ≠ idv) :
    a ∈ handleToggle c idv ↔ a ∈ c := by
  rw [handleToggle]
  by_cases hm : idv ∈ c
  · rw [if_pos hm, Finset.mem_erase]
    exact ⟨fun x => x.2, fun x => ⟨h, x⟩⟩
  · rw [if_neg hm, Finset.mem_insert]
    exact ⟨fun x => x.resolve_left h, Or.inr⟩

theorem collect_leafNode (i lb ty : String) (d : Nat) (b : Bool) (x y : ℚ) (tl : TreeList) :
    collect (.mk i lb ty d b x y (.raw tl)) =
      ([(.mk i lb ty d b x y (.raw tl), nodeWidth lb ty / 2)], []) := by
  cases b with
  | true => exact collect_collapsed i lb ty d x y (.raw tl)
  | false => exact collect_raw i lb ty d x y tl

theorem clearFlags_mk (i lb ty : String) (d : Nat) (b : Bool) (x y : ℚ) (ch : PChildren) :
    clearFlags (.mk i lb ty d b x y ch) = .mk i lb ty d false x y (clearFlagsChildren ch) := by
  rw [clearFlags]

theorem clearFlags_x : ∀ p : PNode, (clearFlags p).x = p.x
  | .mk i lb ty d b x y ch => by rw [clearFlags_mk]; rfl

theorem clearFlags_y : ∀ p : PNode, (clearFlags p).y = p.y
  | .mk i lb ty d b x y ch => by rw [clearFlags_mk]; rfl

theorem clearFlags_label : ∀ p : PNode, (clearFlags p).label = p.label
  | .mk i lb ty d b x y ch => by rw [clearFlags_mk]; rfl

theorem clearFlags_type : ∀ p : PNode, (clearFlags p).type = p.type
  | .mk i lb ty d b x y ch => by rw [clearFlags_mk]; rfl

theorem clearFlagsList_headY : ∀ l : PList, (clearFlagsList l).headY = l.headY
  | .nil => by rw [clearFlagsList]
  | .cons p ps => by
    rw [clearFlagsList, PList.headY, PList.headY, clearFlags_y]

theorem clearFlagsList_lastY : ∀ l : PList, (clearFlagsList l).lastY = l.lastY
  | .nil => by rw [clearFlagsList]
  | .cons p .nil => by
    rw [clearFlagsList, clearFlagsList, PList.lastY, PList.lastY, clearFlags_y]
  | .cons p (.cons q qs) => by
    rw [clearFlagsList, clearFlagsList]
    rw [PList.lastY]
    rw [show PList.cons (clearFlags q) (clearFlagsList qs) =
      clearFlagsList (.cons q qs) from (by rw [clearFlagsList])]
    rw [clearFlagsList_lastY (.cons q qs)]
    rw [PList.lastY]

theorem decide_mem_congr (c1 c2 : Finset String) (i : String) (hm : (i ∈ c1) ↔ (i ∈ c2)) :
    decide (i ∈ c1) = decide (i ∈ c2) :=
  decide_eq_decide.mpr hm

mutual
theorem assignCoords_congr (c1 c2 : Finset String) :
    ∀ (t : TreeNode) (d cnt : Nat),
      (∀ n ∈ nodesOf t, (n.id ∈ c1) ↔ (n.id ∈ c2)) →
      assignCoords c1 t d cnt = assignCoords c2 t d cnt
  | .node i lb ty ch, d, cnt, h => by
    have hm : (i ∈ c1) ↔ (i ∈ c2) :=
      h _ (nodesOf_self _)
    have hd : decide (i ∈ c1) = decide (i ∈ c2) := decide_mem_congr c1 c2 i (by
      simpa [TreeNode.id] using hm)
    by_cases hb : (decide (i ∈ c2) || ch.isNil) = true
    · rw [assignCoords_leaf c1 i lb ty ch d cnt (by rw [hd]; exact hb),
        assignCoords_leaf c2 i lb ty ch d cnt hb, hd]
    · have hbf : (decide (i ∈ c2) || ch.isNil) = false := Bool.eq_false_iff.mpr hb
      rw [assignCoords_internal c1 i lb ty ch d cnt (by rw [hd]; exact hbf),
        assignCoords_internal c2 i lb ty ch d cnt hbf, hd]
      rw [assignCoordsList_congr c1 c2 ch (d + 1) cnt
        (fun n hn => h n (by rw [nodesOf]; exact List.mem_cons_of_mem _ hn))]
theorem assignCoordsList_congr (c1 c2 : Finset String) :
    ∀ (ts : TreeList) (d cnt : Nat),
      (∀ n ∈ nodesOfList ts, (n.id ∈ c1) ↔ (n.id ∈ c2)) →
      assignCoordsList c1 ts d cnt = assignCoordsList c2 ts d cnt
  | .nil, d, cnt, _ => by rw [assignCoordsList, assignCoordsList]
  | .cons t ts, d, cnt, h => by
    rw [assignCoordsList_cons, assignCoordsList_cons]
    rw [assignCoords_congr c1 c2 t d cnt
      (fun n hn => h n (by rw [nodesOfList]; exact List.mem_append_left _ hn))]
    rw [assignCoordsList_congr c1 c2 ts d (assignCoords c2 t d cnt).2
      (fun n hn => h n (by rw [nodesOfList]; exact List.mem_append_right _ hn))]
end

mutual
theorem assignCoords_flagCongr (c1 c2 : Finset String) :
    ∀ (t : TreeNode) (d cnt : Nat),
      (∀ n ∈ nodesOf t, n.children ≠ TreeList.nil → ((n.id ∈ c1) ↔ (n.id ∈ c2))) →
      clearFlags (assignCoords c1 t d cnt).1 = clearFlags (assignCoords c2 t d cnt).1 ∧
      (assignCoords c1 t d cnt).2 = (assignCoords c2 t d cnt).2
  | .node i lb ty ch, d, cnt, h => by
    cases ch with
    | nil =>
      rw [assignCoords_leaf c1 i lb ty .nil d cnt (by simp [TreeList.isNil]),
        assignCoords_leaf c2 i lb ty .nil d cnt (by simp [TreeList.isNil])]
      exact ⟨by rw [clearFlags_mk, clearFlags_mk], rfl⟩
    | cons t1 ts1 =>
      have hm : (i ∈ c1) ↔ (i ∈ c2) := by
        have := h _ (nodesOf_self (.node i lb ty (.cons t1 ts1)))
          (by simp [TreeNode.children])
        simpa [TreeNode.id] using this
      have hd : decide (i ∈ c1) = decide (i ∈ c2) := decide_mem_congr c1 c2 i hm
      by_cases hb : (decide (i ∈ c2) || TreeList.isNil (.cons t1 ts1)) = true
      · rw [assignCoords_leaf c1 i lb ty _ d cnt (by rw [hd]; exact hb),
          assignCoords_leaf c2 i lb ty _ d cnt hb, hd]
        exact ⟨rfl, rfl⟩
      · have hbf : (decide (i ∈ c2) || TreeList.isNil (.cons t1 ts1)) = false :=
          Bool.eq_false_iff.mpr hb
        rw [assignCoords_internal c1 i lb ty _ d cnt (by rw [hd]; exact hbf),
          assignCoords_internal c2 i lb ty _ d cnt hbf, hd]
        have hE := assignCoordsList_flagCongr c1 c2 (.cons t1 ts1) (d + 1) cnt
          (fun n hn hc => h n (by rw [nodesOf]; exact List.mem_cons_of_mem _ hn) hc)
        have hhy : (assignCoordsList c1 (.cons t1 ts1) (d + 1) cnt).1.headY =
            (assignCoordsList c2 (.cons t1 ts1) (d + 1) cnt).1.headY := by
          rw [← clearFlagsList_headY, hE.1, clearFlagsList_headY]
        have hly : (assignCoordsList c1 (.cons t1 ts1) (d + 1) cnt).1.lastY =
            (assignCoordsList c2 (.cons t1 ts1) (d + 1) cnt).1.lastY := by
          rw [← clearFlagsList_lastY, hE.1, clearFlagsList_lastY]
        refine ⟨?_, hE.2⟩
        rw [clearFlags_mk, clearFlags_mk, clearFlagsChildren, clearFlagsChildren]
        rw [hE.1, hhy, hly]
theorem assignCoordsList_flagCongr (c1 c2 : Finset String) :
    ∀ (ts : TreeList) (d cnt : Nat),
      (∀ n ∈ nodesOfList ts, n.children ≠ TreeList.nil → ((n.id ∈ c1) ↔ (n.id ∈ c2))) →
      clearFlagsList (assignCoordsList c1 ts d cnt).1 =
        clearFlagsList (assignCoordsList c2 ts d cnt).1 ∧
      (assignCoordsList c1 ts d cnt).2 = (assignCoordsList c2 ts d cnt).2
  | .nil, d, cnt, _ => by
    rw [assignCoordsList, assignCoordsList]
    exact ⟨rfl, rfl⟩
  | .cons t ts, d, cnt, h => by
    rw [assignCoordsList_cons, assignCoordsList_cons]
    have h1 := assignCoords_flagCongr c1 c2 t d cnt
      (fun n hn hc => h n (by rw [nodesOfList]; exact List.mem_append_left _ hn) hc)
    have h2 := assignCoordsList_flagCongr c1 c2 ts d (assignCoords c1 t d cnt).2
      (fun n hn hc => h n (by rw [nodesOfList]; exact List.mem_append_right _ hn) hc)
    refine ⟨?_, ?_⟩
    · rw [clearFlagsList, clearFlagsList, h1.1]
      rw [← h1.2, h2.1]
    · rw [← h1.2, h2.2]
end

mutual
theorem collect_flagCongr (c1 c2 : Finset String) :
    ∀ (t : TreeNode) (d cnt : Nat),
      (∀ n ∈ nodesOf t, n.children ≠ TreeList.nil → ((n.id ∈ c1) ↔ (n.id ∈ c2))) →
      (collect (assignCoords c1 t d cnt).1).2 = (collect (assignCoords c2 t d cnt).1).2 ∧
      (collect (assignCoords c1 t d cnt).1).1.map (fun z => (clearFlags z.1, z.2)) =
        (collect (assignCoords c2 t d cnt).1).1.map (fun z => (clearFlags z.1, z.2))
  | .node i lb ty ch, d, cnt, h => by
    cases ch with
    | nil =>
      rw [assignCoords_leaf c1 i lb ty .nil d cnt (by simp [TreeList.isNil]),
        assignCoords_leaf c2 i lb ty .nil d cnt (by simp [TreeList.isNil])]
      rw [collect_leafNode, collect_leafNode]
      refine ⟨rfl, ?_⟩
      simp only [List.map_cons, List.map_nil]
      rw [clearFlags_mk, clearFlags_mk]
    | cons t1 ts1 =>
      have hm : (i ∈ c1) ↔ (i ∈ c2) := by
        have := h _ (nodesOf_self (.node i lb ty (.cons t1 ts1)))
          (by simp [TreeNode.children])
        simpa [TreeNode.id] using this
      have hd : decide (i ∈ c1) = decide (i ∈ c2) := decide_mem_congr c1 c2 i hm
      by_cases hb : (decide (i ∈ c2) || TreeList.isNil (.cons t1 ts1)) = true
      · rw [assignCoords_leaf c1 i lb ty _ d cnt (by rw [hd]; exact hb),
          assignCoords_leaf c2 i lb ty _ d cnt hb, hd]
        exact ⟨rfl, rfl⟩
      · have hbf : (decide (i ∈ c2) || TreeList.isNil (.cons t1 ts1)) = false :=
          Bool.eq_false_iff.mpr hb
        have hcolf : decide (i ∈ c2) = false := (Bool.or_eq_false_iff.mp hbf).1
        rw [assignCoords_internal c1 i lb ty _ d cnt (by rw [hd]; exact hbf),
          assignCoords_internal c2 i lb ty _ d cnt hbf, hd, hcolf]
        have hrest : ∀ n ∈ nodesOfList (TreeList.cons t1 ts1), n.children ≠ TreeList.nil →
            ((n.id ∈ c1) ↔ (n.id ∈ c2)) :=
          fun n hn hc => h n (by rw [nodesOf]; exact List.mem_cons_of_mem _ hn) hc
        have hE := assignCoordsList_flagCongr c1 c2 (.cons t1 ts1) (d + 1) cnt hrest
        have hhy : (assignCoordsList c1 (.cons t1 ts1) (d + 1) cnt).1.headY =
            (assignCoordsList c2 (.cons t1 ts1) (d + 1) cnt).1.headY := by
          rw [← clearFlagsList_headY, hE.1, clearFlagsList_headY]
        have hly : (assignCoordsList c1 (.cons t1 ts1) (d + 1) cnt).1.lastY =
            (assignCoordsList c2 (.cons t1 ts1) (d + 1) cnt).1.lastY := by
          rw [← clearFlagsList_lastY, hE.1, clearFlagsList_lastY]
        rw [collect_processed, collect_processed, hhy, hly]
        have hL := collectList_flagCongr c1 c2 (.cons t1 ts1) (d + 1) cnt hrest
          ((d : ℚ) * 300 + 100)
          (((assignCoordsList c2 (.cons t1 ts1) (d + 1) cnt).1.headY +
            (assignCoordsList c2 (.cons t1 ts1) (d + 1) cnt).1.lastY) / 2)
          (nodeWidth lb ty / 2)
        refine ⟨hL.1, ?_⟩
        simp only [List.map_cons]
        rw [hL.2, clearFlags_mk, clearFlags_mk, clearFlagsChildren, clearFlagsChildren, hE.1]
theorem collectList_flagCongr (c1 c2 : Finset String) :
    ∀ (ts : TreeList) (d cnt : Nat),
      (∀ n ∈ nodesOfList ts, n.children ≠ TreeList.nil → ((n.id ∈ c1) ↔ (n.id ∈ c2))) →
      ∀ (px py phw : ℚ),
      (collectList px py phw (assignCoordsList c1 ts d cnt).1).2 =
        (collectList px py phw (assignCoordsList c2 ts d cnt).1).2 ∧
      (collectList px py phw (assignCoordsList c1 ts d cnt).1).1.map
          (fun z => (clearFlags z.1, z.2)) =
        (collectList px py phw (assignCoordsList c2 ts d cnt).1).1.map
          (fun z => (clearFlags z.1, z.2))
  | .nil, d, cnt, _, px, py, phw => by
    rw [assignCoordsList, assignCoordsList]
    exact ⟨rfl, rfl⟩
  | .cons t ts, d, cnt, h, px, py, phw => by
    rw [assignCoordsList_cons, assignCoordsList_cons]
    rw [collectList_cons, collectList_cons]
    have hhead : ∀ n ∈ nodesOf t, n.children ≠ TreeList.nil → ((n.id ∈ c1) ↔ (n.id ∈ c2)) :=
      fun n hn hc => h n (by rw [nodesOfList]; exact List.mem_append_left _ hn) hc
    have htail : ∀ n ∈ nodesOfList ts, n.children ≠ TreeList.nil →
        ((n.id ∈ c1) ↔ (n.id ∈ c2)) :=
      fun n hn hc => h n (by rw [nodesOfList]; exact List.mem_append_right _ hn) hc
    have hA := assignCoords_flagCongr c1 c2 t d cnt hhead
    have hT := collect_flagCongr c1 c2 t d cnt hhead
    have hx : (assignCoords c1 t d cnt).1.x = (assignCoords c2 t d cnt).1.x := by
      rw [← clearFlags_x, hA.1, clearFlags_x]
    have hy : (assignCoords c1 t d cnt).1.y = (assignCoords c2 t d cnt).1.y := by
      rw [← clearFlags_y, hA.1, clearFlags_y]
    have hlb : (assignCoords c1 t d cnt).1.label = (assignCoords c2 t d cnt).1.label := by
      rw [← clearFlags_label, hA.1, clearFlags_label]
    have hty : (assignCoords c1 t d cnt).1.type = (assignCoords c2 t d cnt).1.type := by
      rw [← clearFlags_type, hA.1, clearFlags_type]
    have hR := collectList_flagCongr c1 c2 ts d (assignCoords c1 t d cnt).2 htail px py phw
    refine ⟨?_, ?_⟩
    · rw [hx, hy, hlb, hty, hT.1]
      rw [← hA.2, hR.1]
    · simp only [List.map_append]
      rw [hT.2, ← hA.2, hR.2]
end

theorem foldl_max_x_congr :
    ∀ (ns1 ns2 : List (PNode × ℚ)),
      ns1.map (fun z => (clearFlags z.1, z.2)) = ns2.map (fun z => (clearFlags z.1, z.2)) →
      ∀ a : ℚ, ns1.foldl (fun m n => max m (n.1.x + n.2)) a =
        ns2.foldl (fun m n => max m (n.1.x + n.2)) a
  | [], [], _, a => rfl
  | [], z :: t2, h, a => by simp at h
  | z :: t1, [], h, a => by simp at h
  | z1 :: t1, z2 :: t2, h, a => by
    simp only [List.map_cons, List.cons.injEq] at h
    obtain ⟨hz, ht⟩ := h
    have hx : z1.1.x = z2.1.x := by
      have hc : clearFlags z1.1 = clearFlags z2.1 := congrArg Prod.fst hz
      rw [← clearFlags_x, hc, clearFlags_x]
    have hw : z1.2 = z2.2 := by simpa using congrArg Prod.snd hz
    rw [List.foldl_cons, List.foldl_cons, hx, hw]
    exact foldl_max_x_congr t1 t2 ht _

theorem foldl_max_y_congr :
    ∀ (ns1 ns2 : List (PNode × ℚ)),
      ns1.map (fun z => (clearFlags z.1, z.2)) = ns2.map (fun z => (clearFlags z.1, z.2)) →
      ∀ a : ℚ, ns1.foldl (fun m n => max m n.1.y) a = ns2.foldl (fun m n => max m n.1.y) a
  | [], [], _, a => rfl
  | [], z :: t2, h, a => by simp at h
  | z :: t1, [], h, a => by simp at h
  | z1 :: t1, z2 :: t2, h, a => by
    simp only [List.map_cons, List.cons.injEq] at h
    obtain ⟨hz, ht⟩ := h
    have hy : z1.1.y = z2.1.y := by
      have hc : clearFlags z1.1 = clearFlags z2.1 := congrArg Prod.fst hz
      rw [← clearFlags_y, hc, clearFlags_y]
    rw [List.foldl_cons, List.foldl_cons, hy]
    exact foldl_max_y_congr t1 t2 ht _

theorem calculateLayout_some (root : TreeNode) (c : Finset String) :
    calculateLayout (some root) c = some
      ⟨layoutNodes root c, layoutEdges root c,
        max 800 ((layoutNodes root c).foldl (fun m n => max m (n.1.x + n.2)) 0 + 200),
        max 600 ((layoutNodes root c).foldl (fun m n => max m n.1.y) 0 + 200)⟩ := by
  rw [calculateLayout]
  rfl

/-- C8 counterexample: toggling the id of the childless node `"a"` in the
two-node example changes the subsequent layout output — the positioned node
for `"a"` flips its `isCollapsed` flag — so the claim that such a toggle
leaves the layout output unchanged is false. -/
theorem toggle_childless_changes_output :
    calculateLayout (some branchEx) (handleToggle ∅ "a") ≠ calculateLayout (some branchEx) ∅ := by
  intro h
  have h2 := congrArg
    (fun o => o.map (fun r => r.nodes.map (fun z => (z.1.id, z.1.isCollapsed)))) h
  simp only [calculateLayout_some, Option.map_some] at h2
  simp [layoutNodes, layoutRootOf, branchEx, leafEx, handleToggle, assignCoords,
    assignCoordsList, collect, collectList, TreeList.isNil, PNode.id, PNode.isCollapsed] at h2

/-- C8 amended: toggling an id that belongs to no node of the tree leaves the
layout result unchanged entirely; toggling an id all of whose occurrences in
the tree are childless nodes leaves the edge list, every node's coordinates
and half-width, and the bounding box unchanged — only the `isCollapsed`
flags of the affected nodes can change (and the counterexample shows they
do).  The toggle itself is never an error. -/
theorem toggle_no_children_noop (t : TreeNode) (c : Finset String) (idv : String) :
    ((∀ n ∈ nodesOf t, n.id ≠ idv) →
      calculateLayout (some t) (handleToggle c idv) = calculateLayout (some t) c) ∧
    ((∀ n ∈ nodesOf t, n.id = idv → n.children = TreeList.nil) →
      layoutEdges t (handleToggle c idv) = layoutEdges t c ∧
      (layoutNodes t (handleToggle c idv)).map (fun z => (clearFlags z.1, z.2)) =
        (layoutNodes t c).map (fun z => (clearFlags z.1, z.2)) ∧
      (calculateLayout (some t) (handleToggle c idv)).map LayoutResult.width =
        (calculateLayout (some t) c).map LayoutResult.width ∧
      (calculateLayout (some t) (handleToggle c idv)).map LayoutResult.height =
        (calculateLayout (some t) c).map LayoutResult.height) := by
  constructor
  · intro h
    have heq : assignCoords (handleToggle c idv) t 0 0 = assignCoords c t 0 0 :=
      assignCoords_congr (handleToggle c idv) c t 0 0
        (fun n hn => mem_handleToggle_of_ne c idv n.id (h n hn))
    rw [calculateLayout_some, calculateLayout_some]
    simp only [layoutNodes, layoutEdges, layoutRootOf, heq]
  · intro h
    have hagree : ∀ n ∈ nodesOf t, n.children ≠ TreeList.nil →
        ((n.id ∈ handleToggle c idv) ↔ (n.id ∈ c)) := by
      intro n hn hc
      exact mem_handleToggle_of_ne c idv n.id (fun he => hc (h n hn he))
    have hC := collect_flagCongr (handleToggle c idv) c t 0 0 hagree
    have hedges : layoutEdges t (handleToggle c idv) = layoutEdges t c := hC.1
    have hnodes : (layoutNodes t (handleToggle c idv)).map (fun z => (clearFlags z.1, z.2)) =
        (layoutNodes t c).map (fun z => (clearFlags z.1, z.2)) := hC.2
    refine ⟨hedges, hnodes, ?_, ?_⟩
    · rw [calculateLayout_some, calculateLayout_some]
      simp only [Option.map_some']
      rw [foldl_max_x_congr _ _ hnodes 0]
    · rw [calculateLayout_some, calculateLayout_some]
      simp only [Option.map_some']
      rw [foldl_max_y_congr _ _ hnodes 0]

/-- Witness for C8: at the two-node example and an id `"z"` absent from the
tree, both parts of the amended statement apply. -/
theorem toggle_no_children_noop_witness :
    calculateLayout (some branchEx) (handleToggle ∅ "z") = calculateLayout (some branchEx) ∅ ∧
    layoutEdges branchEx (handleToggle ∅ "z") = layoutEdges branchEx ∅ := by
  have W := toggle_no_children_noop branchEx ∅ "z"
  refine ⟨W.1 ?_, (W.2 ?_).1⟩
  · simp [branchEx, leafEx, nodesOf, nodesOfList, TreeNode.id]
  · simp [branchEx, leafEx, nodesOf, nodesOfList, TreeNode.id]
